import Mathlib

/-!
# pi2: distributed thinning, skeleton tracing and region removal

A shallow embedding of the command layer in `pilib/thinandskeletoncommands.h`,
`pilib/distributable.h`, of `itl2/regionremoval.h` and of the codec names and
configuration in `itl2/io/zarrcodecs.h`, followed by the properties
established about it.

External collaborators (the distributor, the thinning kernels, the tracer,
the file system) appear as explicit parameters or as explicit state.
-/

namespace Pi2

/-! ## Definitions -/

/-! ### `IterableDistributable::runDistributed` -/

/-- Local variables of the `while (true)` loop of
`IterableDistributable::runDistributed`: `lastTotalChanged` and the
iteration counter `n` (both start at 0). -/
structure IterState where
  lastTotalChanged : Nat
  n : Nat
  deriving DecidableEq, Repr

/-- Initial values `size_t lastTotalChanged = 0; size_t n = 0;`. -/
def IterState.init : IterState := { lastTotalChanged := 0, n := 0 }

/-- The part of the loop body after `distribute` and `parseTotalCount`:
`totalChanged` is the sum parsed from this iteration's reports.  The result
is `none` when the body executes `break`, otherwise the updated locals
(`lastTotalChanged = totalChanged; n++`). -/
def iterBody (totalChanged : Nat) (st : IterState) : Option IterState :=
  if totalChanged = st.lastTotalChanged then none
  else some { lastTotalChanged := totalChanged, n := st.n + 1 }

/-- The loop `while (true) { ... }`.  `sums k` is the value that
`parseTotalCount` yields for the reports of the `distribute` call made in the
iteration with counter `k`.  The loop is unbounded in the source, so the
model takes fuel: `none` means the loop is still running when the fuel is
used up, `some st` gives the locals at the `break`. -/
def iterLoop (sums : Nat → Nat) : Nat → IterState → Option IterState
  | 0, _ => none
  | fuel + 1, st =>
    match iterBody (sums st.n) st with
    | none => some st
    | some st' => iterLoop sums fuel st'

/-- Number of `distribute` calls (rounds) that
`IterableDistributable::runDistributed` has performed when it returns,
or `none` when it has not returned within `fuel` rounds. -/
def runDistributed (sums : Nat → Nat) (fuel : Nat) : Option Nat :=
  (iterLoop sums fuel IterState.init).map fun st => st.n + 1

/-- Iteration counter `k` (from 0) runs round `k + 1` (rounds from 1). -/
def roundSums (s : Nat → Nat) : Nat → Nat := fun k => s (k + 1)

/-- The sum the loop compares round `r` against: the sum of round `r - 1`,
and the initial `lastTotalChanged = 0` for the first round. -/
def previousSum (s : Nat → Nat) (r : Nat) : Nat :=
  if r ≤ 1 then 0 else s (r - 1)

/-- Sums 0, 5, 5, 5, ... for rounds 1, 2, 3, ... -/
def zeroFirstSums : Nat → Nat := fun r => if r ≤ 1 then 0 else 5

/-- Sums that are 0 in every round. -/
def allZeroSums : Nat → Nat := fun _ => 0

/-- Sums `K - 1, K - 2, ..., 1, 0, 0, ...` for rounds 1, 2, 3, ...: strictly
decreasing down to 0 at round `K`. -/
def countdownSums (K : Nat) : Nat → Nat := fun r => K - r

/-- Sums alternating `a, b, a, b, ...` from round 1. -/
def alternatingSums (a b : Nat) : Nat → Nat := fun r => if r % 2 = 1 then a else b

/-! ### Per-block thinning commands -/

/-- The text `HybridThinCommand::run` sends to `cout`:
`cout << changed << " pixels removed." << endl`. -/
def pixelsRemovedReport (changed : Nat) : String :=
  Nat.repr changed ++ " pixels removed." ++ "\n"

/-- Method `HybridThinCommand::run`: the thinning kernel `hybridThin` (a parameter)
updates the image and returns the number of changed pixels, which is
reported on `cout`.  The result is the updated image and the printed text. -/
def HybridThinCommand.run {I : Type} (hybridThin : I → I × Nat) (img : I) : I × String :=
  let r := hybridThin img
  (r.1, pixelsRemovedReport r.2)

/-- Method `LineThinCommand::run`: as `HybridThinCommand::run`, with the kernel
`lineThin`. -/
def LineThinCommand.run {I : Type} (lineThin : I → I × Nat) (img : I) : I × String :=
  let r := lineThin img
  (r.1, pixelsRemovedReport r.2)

/-- The literal that `IterableDistributable::runDistributed` passes to
`parseTotalCount`. -/
def parseTotalCountKey : String := "pixels removed"

/-- The per-block commands that can be the `command_t` template argument of
`IterableDistributable`. -/
inductive BlockCommand where
  | HybridThinCommand
  | LineThinCommand
  deriving DecidableEq, Repr

/-- Command name passed to the base-class constructor. -/
def BlockCommand.name : BlockCommand → String
  | .HybridThinCommand => "hybridthin"
  | .LineThinCommand => "linethin"

/-- The `command_t` argument in the base class of `HybridSkeletonCommand`:
`IterableDistributable<HybridThinCommand<pixel_t>, ...>`. -/
def HybridSkeletonCommand.command_t : BlockCommand := .HybridThinCommand

/-- The `command_t` argument in the base class of `LineSkeletonCommand`:
`IterableDistributable<HybridThinCommand<pixel_t>, ...>`. -/
def LineSkeletonCommand.command_t : BlockCommand := .HybridThinCommand

/-- The task handed to `distributor.distribute` in every iteration of
`IterableDistributable<command_t, base_t>::runDistributed`
(`command_t cmd; distributor.distribute(&cmd, ...)`). -/
def IterableDistributable.dispatched (command_t : BlockCommand) : BlockCommand := command_t

/-! ### Command arguments and `Distributable::getCorrespondingBlock` -/

/-- Type `Vec3c`: an integer coordinate triple. -/
structure Vec3c where
  x : Int
  y : Int
  z : Int
  deriving DecidableEq, Repr

/-- The alternatives of `ParamVariant` used by the commands below: a pointer
to an image (`none` is the null pointer), a string, a block index and a block
origin, and a pointer to a distributed image (`none` is the null pointer). -/
inductive ParamVariant where
  | image (p : Option Nat)
  | str (s : String)
  | blockIndex (i : Nat)
  | blockOrigin (v : Vec3c)
  | distributedImage (p : Option Nat)
  deriving DecidableEq, Repr

/-- The five in/out vectors of `getCorrespondingBlock`. -/
structure BlockGeometry where
  readStart : Vec3c
  readSize : Vec3c
  writeFilePos : Vec3c
  writeImPos : Vec3c
  writeSize : Vec3c
  deriving DecidableEq, Repr

/-- Method `Distributable::getCorrespondingBlock`, default implementation: the body
is empty, so the reference arguments are returned as they were passed. -/
def Distributable.getCorrespondingBlock (args : List ParamVariant) (_argIndex : Nat)
    (g : BlockGeometry) : List ParamVariant × BlockGeometry :=
  (args, g)

/-! ### Tracing a block and loading the block files -/

/-- Modelled from the spec: `itl2::toString` (declared outside the given
sources) applied to a block index, the decimal rendering used in the
block-indexed file name `<template>_<blockIndex>.dat`. -/
def itl2.toString (x : Nat) : String := Nat.repr x

/-- Files holding serialized graphs: the graph list stored under a name, or
`none` when there is no such file. -/
abbrev FileSystem (G : Type) := String → Option (List G)

/-- Call `net.write(filename, true)`: append one graph to the file, creating it
when it does not exist. -/
def FileSystem.append {G : Type} (fs : FileSystem G) (filename : String) (net : G) :
    FileSystem G :=
  fun name => if name = filename then some ((fs name).getD [] ++ [net]) else fs name

/-- Call `fs::remove(fname)`. -/
def FileSystem.remove {G : Type} (fs : FileSystem G) (fname : String) : FileSystem G :=
  fun name => if name = fname then none else fs name

/-- Call `pop<Image<pixel_t>*>(args)`: take the first argument, which must hold an
image pointer. -/
def popImage : List ParamVariant → Option (Option Nat × List ParamVariant)
  | .image p :: rest => some (p, rest)
  | _ => none

/-- Call `pop<string>(args)`. -/
def popString : List ParamVariant → Option (String × List ParamVariant)
  | .str s :: rest => some (s, rest)
  | _ => none

/-- Call `pop<Distributor::BLOCK_INDEX_ARG_TYPE>(args)`. -/
def popBlockIndex : List ParamVariant → Option (Nat × List ParamVariant)
  | .blockIndex i :: rest => some (i, rest)
  | _ => none

/-- Call `pop<Distributor::BLOCK_ORIGIN_ARG_TYPE>(args)`. -/
def popBlockOrigin : List ParamVariant → Option (Vec3c × List ParamVariant)
  | .blockOrigin v :: rest => some (v, rest)
  | _ => none

/-- What `TraceLineSkeletonBlockCommand::run` leaves behind: the remaining
arguments, the file name it wrote to, and the file system. -/
structure BlockRunResult (G : Type) where
  args : List ParamVariant
  filename : String
  fs : FileSystem G

/-- Method `TraceLineSkeletonBlockCommand::run`.  `traceBlocks` stands for
`internals::traceLineSkeletonBlocks` (skeleton image, optional original,
origin ↦ graphs).  Fails (`none`) when an argument has the wrong type or the
skeleton pointer is null. -/
def TraceLineSkeletonBlockCommand.run {G : Type}
    (traceBlocks : Nat → Option Nat → Vec3c → List G)
    (args : List ParamVariant) (fs : FileSystem G) : Option (BlockRunResult G) :=
  match popImage args with
  | none => none
  | some (none, _) => none
  | some (some img, args1) =>
    match popImage args1 with
    | none => none
    | some (pOrig, args2) =>
      match popString args2 with
      | none => none
      | some (filename, args3) =>
        match popBlockIndex args3 with
        | none => none
        | some (index, args4) =>
          match popBlockOrigin args4 with
          | none => none
          | some (origin, args5) =>
            let filename := filename ++ ("_" ++ itl2.toString index ++ ".dat")
            let nets := traceBlocks img pOrig origin
            some { args := args5, filename := filename,
                   fs := nets.foldl (fun f net => f.append filename net) fs }

/-- The name built in the loading loop of
`TraceLineSkeletonCommand::runDistributed`:
`tempFilename + "_" + itl2::toString(n) + ".dat"`. -/
def blockFileName (tempFilename : String) (n : Nat) : String :=
  tempFilename ++ "_" ++ itl2.toString n ++ ".dat"

/-- File operations performed by the loading loop. -/
inductive FileOp where
  | read (fname : String)
  | remove (fname : String)
  deriving DecidableEq, Repr

/-- State of the loading loop: the graphs collected in `nets`, the file
system, and the file operations performed so far. -/
structure LoadState (G : Type) where
  nets : List G
  fs : FileSystem G
  ops : List FileOp

/-- The loop `for (size_t n = 0; n < output.size(); n++)` of
`TraceLineSkeletonCommand::runDistributed`, with `remaining` iterations to go
from counter `n`: read the block file into `subnets`, append them to `nets`,
remove the file.  Reading a file that does not exist fails. -/
def loadLoop {G : Type} (tempFilename : String) :
    Nat → Nat → LoadState G → Option (LoadState G)
  | 0, _, st => some st
  | remaining + 1, n, st =>
    let fname := blockFileName tempFilename n
    match st.fs fname with
    | none => none
    | some subnets =>
      loadLoop tempFilename remaining (n + 1)
        { nets := st.nets ++ subnets,
          fs := st.fs.remove fname,
          ops := st.ops ++ [FileOp.read fname, FileOp.remove fname] }

/-- The part of `TraceLineSkeletonCommand::runDistributed` between the
dispatch and `combineTracedBlocks`: `output` are the reports returned by the
per-block dispatch, `fs` the files after it.  The `nets` of the result are
passed to `internals::combineTracedBlocks`. -/
def loadBlockFiles {G : Type} (tempFilename : String) (output : List String)
    (fs : FileSystem G) : Option (LoadState G) :=
  loadLoop tempFilename output.length 0 { nets := [], fs := fs, ops := [] }

/-! ### The trace commands and their variants without an original -/

/-- Call `args.insert(args.begin() + pos, x)` on a `std::vector`: the elements
before `pos` keep their place, `x` follows, then the elements from `pos` on.
The iterator `begin() + pos` is valid only up to `end()`, so the call fails
(`none`) when `pos` exceeds the size. -/
def vectorInsert (args : List ParamVariant) (pos : Nat) (x : ParamVariant) :
    Option (List ParamVariant) :=
  if pos ≤ args.length then some (args.take pos ++ x :: args.drop pos) else none

/-- Method `TraceLineSkeletonBlock2Command::run`:
`args.insert(args.begin() + 1, (Image<pixel_t>*)0)` followed by
`TraceLineSkeletonBlockCommand<pixel_t>().run(args)`. -/
def TraceLineSkeletonBlock2Command.run {G : Type}
    (traceBlocks : Nat → Option Nat → Vec3c → List G)
    (args : List ParamVariant) (fs : FileSystem G) : Option (BlockRunResult G) :=
  match vectorInsert args 1 (.image none) with
  | none => none
  | some args => TraceLineSkeletonBlockCommand.run traceBlocks args fs

/-- What `TraceLineSkeletonCommand::run` leaves behind: the remaining
arguments, and the graph `net` stored by `net.toImage` into the images
`vertices`, `edges` and `measurements`. -/
structure TraceRunResult (G : Type) where
  args : List ParamVariant
  vertices : Nat
  edges : Nat
  measurements : Nat
  net : G
  deriving DecidableEq, Repr

/-- Method `TraceLineSkeletonCommand::run`.  `traceLineSkeleton` stands for
`itl2::traceLineSkeleton` (skeleton image, optional original ↦ graph).  Fails
(`none`) when an argument has the wrong type or a dereferenced pointer
(skeleton, vertices, edges, measurements) is null. -/
def TraceLineSkeletonCommand.run {G : Type} (traceLineSkeleton : Nat → Option Nat → G)
    (args : List ParamVariant) : Option (TraceRunResult G) :=
  match popImage args with
  | none => none
  | some (none, _) => none
  | some (some img, args1) =>
    match popImage args1 with
    | none => none
    | some (pOrig, args2) =>
      match popImage args2 with
      | none => none
      | some (none, _) => none
      | some (some vertices, args3) =>
        match popImage args3 with
        | none => none
        | some (none, _) => none
        | some (some edges, args4) =>
          match popImage args4 with
          | none => none
          | some (none, _) => none
          | some (some measurements, args5) =>
            some { args := args5, vertices := vertices, edges := edges,
                   measurements := measurements, net := traceLineSkeleton img pOrig }

/-- Method `TraceLineSkeleton2Command::run`:
`args.insert(args.begin() + 1, (Image<pixel_t>*)0)` followed by
`TraceLineSkeletonCommand<pixel_t>().run(args)`. -/
def TraceLineSkeleton2Command.run {G : Type} (traceLineSkeleton : Nat → Option Nat → G)
    (args : List ParamVariant) : Option (TraceRunResult G) :=
  match vectorInsert args 1 (.image none) with
  | none => none
  | some args => TraceLineSkeletonCommand.run traceLineSkeleton args

/-- Call `pop<DistributedImage<pixel_t>*>(args)`. -/
def popDistributedImage : List ParamVariant → Option (Option Nat × List ParamVariant)
  | .distributedImage p :: rest => some (p, rest)
  | _ => none

/-- The block command whose `runDistributed` hands itself (`this`) to
`distributor.distribute`. -/
inductive TraceBlockCommand where
  | TraceLineSkeletonBlockCommand
  | TraceLineSkeletonBlock2Command
  deriving DecidableEq, Repr

/-- The distributor as seen by `TraceLineSkeletonCommand::runDistributed`:
`distribute(cmd, args, 2, Vec3c(0, 0, 0))` runs the block command on every
block and yields the reports and the files the blocks have written, or
fails. -/
abbrev Distribute (G : Type) :=
  TraceBlockCommand → List ParamVariant → FileSystem G → Option (List String × FileSystem G)

/-- What `TraceLineSkeletonCommand::runDistributed` leaves behind: the
remaining arguments, the graph `net` set into the distributed images
`vertices`, `edges` and `measurements`, the files, the file operations the
method itself performed (those of the blocks are inside the distributor), and
the returned reports. -/
structure DistributedTraceResult (G : Type) where
  args : List ParamVariant
  vertices : Nat
  edges : Nat
  measurements : Nat
  net : G
  fs : FileSystem G
  ops : List FileOp
  returned : List String

/-- The temporary file name of `TraceLineSkeletonCommand::runDistributed`:
`string("./tmp_images/skeleton_data_") + itl2::toString(gen())`, where `gen`
is the number drawn from the random generator. -/
def traceTempFilename (gen : Nat) : String :=
  "./tmp_images/skeleton_data_" ++ itl2.toString gen

/-- The dispatch of `TraceLineSkeletonCommand::runDistributed`
(`if (pOrig) ... else ...`): with an original the block command is
`TraceLineSkeletonBlockCommand` on (skeleton, original, name, index, origin);
without, it is `TraceLineSkeletonBlock2Command` on (skeleton, name, index,
origin).  The result is `output` and the files after the dispatch. -/
def dispatchBlocks {G : Type} (distribute : Distribute G) (img : Nat) (pOrig : Option Nat)
    (tempFilename : String) (fs : FileSystem G) : Option (List String × FileSystem G) :=
  match pOrig with
  | some orig =>
    distribute .TraceLineSkeletonBlockCommand
      [.distributedImage (some img), .distributedImage (some orig),
       .str tempFilename, .blockIndex 0, .blockOrigin ⟨0, 0, 0⟩] fs
  | none =>
    distribute .TraceLineSkeletonBlock2Command
      [.distributedImage (some img),
       .str tempFilename, .blockIndex 0, .blockOrigin ⟨0, 0, 0⟩] fs

/-- Method `TraceLineSkeletonCommand::runDistributed`.  `gen` is the number
drawn from the random generator for the temporary file name,
`combineTracedBlocks` stands for `internals::combineTracedBlocks`.  The five
distributed images are popped, the temporary name is built and removed, the
blocks are dispatched, the block files are loaded and removed one by one, and
the loaded graphs are handed to `combineTracedBlocks`, whose result is set
into the three output images. -/
def TraceLineSkeletonCommand.runDistributed {G : Type} (distribute : Distribute G)
    (combineTracedBlocks : List G → G) (gen : Nat)
    (args : List ParamVariant) (fs : FileSystem G) : Option (DistributedTraceResult G) :=
  match popDistributedImage args with
  | none => none
  | some (none, _) => none
  | some (some img, args1) =>
    match popDistributedImage args1 with
    | none => none
    | some (pOrig, args2) =>
      match popDistributedImage args2 with
      | none => none
      | some (none, _) => none
      | some (some vertices, args3) =>
        match popDistributedImage args3 with
        | none => none
        | some (none, _) => none
        | some (some edges, args4) =>
          match popDistributedImage args4 with
          | none => none
          | some (none, _) => none
          | some (some measurements, args5) =>
            let tempFilename := traceTempFilename gen
            let fs := fs.remove tempFilename
            match dispatchBlocks distribute img pOrig tempFilename fs with
            | none => none
            | some (output, fs) =>
              match loadBlockFiles tempFilename output fs with
              | none => none
              | some st =>
                some { args := args5, vertices := vertices, edges := edges,
                       measurements := measurements,
                       net := combineTracedBlocks st.nets, fs := st.fs,
                       ops := FileOp.remove tempFilename :: st.ops,
                       returned := [] }

/-- Method `TraceLineSkeleton2Command::runDistributed`:
`args.insert(args.begin() + 1, (DistributedImage<pixel_t>*)0)` followed by
`TraceLineSkeletonCommand<pixel_t>().runDistributed(distributor, args)`. -/
def TraceLineSkeleton2Command.runDistributed {G : Type} (distribute : Distribute G)
    (combineTracedBlocks : List G → G) (gen : Nat)
    (args : List ParamVariant) (fs : FileSystem G) : Option (DistributedTraceResult G) :=
  match vectorInsert args 1 (.distributedImage none) with
  | none => none
  | some args =>
    TraceLineSkeletonCommand.runDistributed distribute combineTracedBlocks gen args fs

/-- Arguments of the block command for block `k` of a sample run: the
distributed images are replaced by images of the block, the block index by `k`
and the block origin by `(0, 0, 10 k)`; the file name template is kept. -/
def sampleBlockArgs (k : Nat) (args : List ParamVariant) : List ParamVariant :=
  args.map fun a =>
    match a with
    | .distributedImage p => .image (p.map fun h => 100 * h + k)
    | .blockIndex _ => .blockIndex k
    | .blockOrigin _ => .blockOrigin ⟨0, 0, 10 * k⟩
    | a => a

/-- Tracer of the sample run: one graph (1) in the block at the origin, two
graphs (2 and 3) in every other block. -/
def sampleTraceBlocks : Nat → Option Nat → Vec3c → List Nat :=
  fun _ _ origin => if origin.z = 0 then [1] else [2, 3]

/-- Method `run` of the block command that the distributor was handed. -/
def TraceBlockCommand.run {G : Type} (cmd : TraceBlockCommand)
    (traceBlocks : Nat → Option Nat → Vec3c → List G)
    (args : List ParamVariant) (fs : FileSystem G) : Option (BlockRunResult G) :=
  match cmd with
  | .TraceLineSkeletonBlockCommand => TraceLineSkeletonBlockCommand.run traceBlocks args fs
  | .TraceLineSkeletonBlock2Command => TraceLineSkeletonBlock2Command.run traceBlocks args fs

/-- A sample distributor over two blocks: it runs the block command it is
handed on block 0 and then on block 1 and returns one report per block. -/
def twoBlockDistribute : Distribute Nat := fun cmd args fs =>
  match cmd.run sampleTraceBlocks (sampleBlockArgs 0 args) fs with
  | none => none
  | some r0 =>
    match cmd.run sampleTraceBlocks (sampleBlockArgs 1 args) r0.fs with
    | none => none
    | some r1 => some (["Writing 1 graphs", "Writing 2 graphs"], r1.fs)

/-! ### `regionRemoval` -/

/-- Range of `size_t`. -/
def sizeMod : Nat := 2 ^ 64

/-- The loop `while (n < results.size())` of `regionRemoval` under
`preserveEdges`.  `n` is a `size_t`: `n--` and `n++` and `size() - 1` are
taken modulo `2 ^ 64`.  An access outside a row fails.  The loop has no
bound in the source, so the model takes fuel (`none` also when it runs
out). -/
def edgeFilterLoop {α : Type} [Zero α] [DecidableEq α] :
    Nat → List (List α) → Nat → Option (List (List α))
  | 0, _, _ => none
  | fuel + 1, results, n =>
    if n < results.length then
      match results[n]? with
      | none => none
      | some row =>
        match row[(row.length + sizeMod - 1) % sizeMod]? with
        | none => none
        | some v =>
          if v ≠ 0 then
            let results := results.eraseIdx n
            let n := (n + sizeMod - 1) % sizeMod
            edgeFilterLoop fuel results ((n + 1) % sizeMod)
          else
            edgeFilterLoop fuel results ((n + 1) % sizeMod)
    else some results

/-- The table that `regionRemoval` passes to `fillParticles`: the result of
`analyzeParticles`, filtered by the loop above when `preserveEdges` is set. -/
def regionRemovalTable {α : Type} [Zero α] [DecidableEq α] (preserveEdges : Bool)
    (results : List (List α)) (fuel : Nat) : Option (List (List α)) :=
  if preserveEdges then edgeFilterLoop fuel results 0 else some results

/-! ### Zarr codecs (`itl2/io/zarrcodecs.h`) -/

/-- Enumeration `zarr::ZarrCodecType`. -/
inductive ZarrCodecType where
  | None
  | ArrayArrayCodec
  | ArrayBytesCodec
  | BytesBytesCodec
  deriving DecidableEq, Repr

/-- Enumeration `zarr::ZarrCodecName`. -/
inductive ZarrCodecName where
  | None
  | Bytes
  | Transpose
  deriving DecidableEq, Repr

/-- Modelled from the spec: `itl2::toLower` (declared in `utilities.h`, outside
the given sources), the lower-casing of a string: the letters `A` to `Z` are
replaced by `a` to `z`, every other character is kept. -/
def itl2.toLower (str : String) : String := String.mk (str.data.map Char.toLower)

/-- Specialisation `toString<zarr::ZarrCodecName>`: the `switch` returns the
text for `Bytes` and `Transpose`; any other value reaches the `throw`. -/
def ZarrCodecName.toString : ZarrCodecName → Except String String
  | .Bytes => .ok "bytes"
  | .Transpose => .ok "transpose"
  | .None => .error "Invalid ZarrCodecName."

/-- Specialisation `fromString<zarr::ZarrCodecName>`: the argument is copied,
lower-cased and compared with the two names; otherwise it throws. -/
def ZarrCodecName.fromString (str0 : String) : Except String ZarrCodecName :=
  let str := itl2.toLower str0
  if str = "bytes" then .ok .Bytes
  else if str = "transpose" then .ok .Transpose
  else .error ("Invalid zarr codec name: " ++ str)

/-- The values of `nlohmann::json` that a codec configuration is read from
here: `null` (the default argument `nlohmann::json()`) and objects whose
values are strings.  The members are listed in iteration order; the keys of
an object are distinct. -/
inductive Json where
  | null
  | object (members : List (String × String))
  deriving DecidableEq, Repr

/-- The members visited by `for (auto it = config.begin(); it != config.end();
++it)`: none for `null`, the key/value pairs for an object. -/
def Json.members : Json → List (String × String)
  | .null => []
  | .object members => members

/-- Class `zarr::ZarrCodec`: the fields `type`, `name` and `configuration`. -/
structure ZarrCodec where
  type : ZarrCodecType
  name : ZarrCodecName
  configuration : Json
  deriving DecidableEq, Repr

/-- The `for` loop of `ZarrCodec::readBytesCodecConfig` over the remaining
members, with the current value of the local `endian`: the final value of
`endian`, or the message of the exception thrown. -/
def readBytesCodecConfigLoop : List (String × String) → String → Except String String
  | [], endian => .ok endian
  | (key, value) :: rest, _ =>
    if key = "endian" then
      if value ≠ "little" ∧ value ≠ "big" then
        .error ("Invalid endian in bytes codec config: " ++ value)
      else readBytesCodecConfigLoop rest value
    else .error ("Invalid key in bytes codec config: " ++ key)

/-- Method `ZarrCodec::readBytesCodecConfig`: `endian` starts as `little`, the
loop runs over the members of `config`, and the configuration becomes the
object with the single member `endian`. -/
def ZarrCodec.readBytesCodecConfig (codec : ZarrCodec) (config : Json) :
    Except String ZarrCodec :=
  match readBytesCodecConfigLoop config.members "little" with
  | .error msg => .error msg
  | .ok endian => .ok { codec with configuration := .object [("endian", endian)] }

/-- Method `ZarrCodec::readTransposeCodecConfig`: the configuration becomes
`config`. -/
def ZarrCodec.readTransposeCodecConfig (codec : ZarrCodec) (config : Json) :
    Except String ZarrCodec :=
  .ok { codec with configuration := config }

/-- Method `ZarrCodec::readConfig`: dispatch on the codec name. -/
def ZarrCodec.readConfig (codec : ZarrCodec) (config : Json) : Except String ZarrCodec :=
  match codec.name with
  | .Bytes => codec.readBytesCodecConfig config
  | .Transpose => codec.readTransposeCodecConfig config
  | .None => .error "Invalid zarr codec"

/-- A bytes codec before its configuration is read. -/
def bytesCodec : ZarrCodec :=
  { type := .ArrayBytesCodec, name := .Bytes, configuration := .null }

/-- Value of a string of decimal digits, most significant first, continuing
from `acc`. -/
def decimalValue (cs : List Char) (acc : Nat) : Nat :=
  cs.foldl (fun a c => a * 10 + (c.toNat - 48)) acc

/-- Graph lists of the two blocks of the sample run. -/
def twoBlockGraphs : Nat → List Nat := fun i => if i = 0 then [1] else [2, 3]

/-- A particle table with columns X, Volume, IsOnEdge: rows 0 and 2 touch the
edge. -/
def sampleParticles : List (List Int) := [[4, 10, 1], [7, 3, 0], [1, 5, 1], [2, 8, 0]]

/-! ### `CleanSkeletonCommand` -/

/-- Modelled from the spec: an edge of the graph (`Network` is declared in
`network.h`, outside the given sources): the two vertex ids it joins and its
measurements.  The measurements are scalars the cleanup only carries and
combines, so their type `M` is left open. -/
structure Edge (M : Type) where
  verts : Nat × Nat
  properties : M
  deriving DecidableEq, Repr

/-- Modelled from the spec: the graph read by `Network::fromImage` and written
by `Network::toImage` (both outside the given sources): the vertex positions,
indexed by vertex id, and the edges.  The position type `V` is left open. -/
structure Network (V M : Type) where
  vertices : List V
  edges : List (Edge M)
  deriving DecidableEq, Repr

/-- Modelled from the spec: the number of ends of edge `e` at vertex `v`
(`Network` is outside the given sources): 0, 1, or 2 for a self-loop. -/
def Edge.endsAt {M : Type} (e : Edge M) (v : Nat) : Nat :=
  (if e.verts.1 = v then 1 else 0) + (if e.verts.2 = v then 1 else 0)

/-- Modelled from the spec: the degree of vertex `v` (`Network` is outside the
given sources), the number of edge ends at `v`. -/
def Network.degree {V M : Type} (net : Network V M) (v : Nat) : Nat :=
  (net.edges.map fun e => e.endsAt v).sum

/-- Modelled from the spec: the far end of an edge `e` of vertex `v`, the
vertex that the merged edge is attached to when `v` is dissolved. -/
def Edge.otherEnd {M : Type} (e : Edge M) (v : Nat) : Nat :=
  if e.verts.1 = v then e.verts.2 else e.verts.1

/-- Modelled from the spec: straight-through elimination at one vertex ("any
vertex left with degree 2 is dissolved and its two edges merged into one").
When the vertex has degree 2 and two edges, these are replaced by one edge
joining their far ends, with the measurements combined, and the vertex stays
in the vertex list without edges.  A vertex whose degree 2 comes from a single
self-loop has no two edges to merge and is left as it is, as is every vertex
of another degree: no edge is dropped without a merged edge taking its place
(the data model of the spec keeps a genuine self-loop branch in the final
graph). -/
def Network.disconnectNode {V M : Type} (combine : M → M → M) (net : Network V M) (v : Nat) :
    Network V M :=
  if net.degree v = 2 then
    match net.edges.filter fun e => e.endsAt v ≠ 0 with
    | [e1, e2] =>
      { net with edges := (net.edges.filter fun e => e.endsAt v = 0) ++
          [{ verts := (e1.otherEnd v, e2.otherEnd v),
             properties := combine e1.properties e2.properties }] }
    | _ => net
  else net

/-- Modelled from the spec: `Network::disconnectStraightThroughNodes`
(declared outside the given sources): straight-through elimination applied to
every vertex in turn. -/
def Network.disconnectStraightThroughNodes {V M : Type} (combine : M → M → M)
    (net : Network V M) : Network V M :=
  (List.range net.vertices.length).foldl (Network.disconnectNode combine) net

/-- Modelled from the spec: the id of vertex `i` after the vertices of degree
0 are dropped (part of `Network::removeIsolatedNodes`, outside the given
sources): the number of vertices below `i` that stay. -/
def Network.newIndex {V M : Type} (net : Network V M) (i : Nat) : Nat :=
  ((List.range i).filter fun j => decide (net.degree j ≠ 0)).length

/-- Modelled from the spec: `Network::removeIsolatedNodes` (declared outside
the given sources), isolated-node elimination ("any vertex left with degree 0
is dropped"): the vertices of degree 0 are removed from the vertex list and
the edges are renumbered to the new vertex ids. -/
def Network.removeIsolatedNodes {V M : Type} (net : Network V M) : Network V M :=
  { vertices := (net.vertices.enum.filter fun p => decide (net.degree p.1 ≠ 0)).map Prod.snd,
    edges := net.edges.map fun e =>
      { e with verts := (net.newIndex e.verts.1, net.newIndex e.verts.2) } }

/-- Method `CleanSkeletonCommand::run` on the graph held by the three argument
images: `net.disconnectStraightThroughNodes(true)` followed by
`net.removeIsolatedNodes(true)`; the result is written back to the images.
The argument `true` of the two calls is not interpreted; the help text of the
command says that straight-through and isolated nodes are removed. -/
def CleanSkeletonCommand.run {V M : Type} (combine : M → M → M) (net : Network V M) :
    Network V M :=
  (net.disconnectStraightThroughNodes combine).removeIsolatedNodes

/-- Sum of the measurements of all edges of a graph. -/
def Network.totalMeasurement {V M : Type} [AddCommMonoid M] (net : Network V M) : M :=
  (net.edges.map fun e => e.properties).sum

theorem iterLoop_spec (sums : Nat → Nat) :
    ∀ (fuel : Nat) (st out : IterState),
      iterLoop sums fuel st = some out ↔
        ∃ j, j < fuel ∧ out.n = st.n + j ∧
          out.lastTotalChanged = (if j = 0 then st.lastTotalChanged else sums (st.n + j - 1)) ∧
          sums (st.n + j) = out.lastTotalChanged ∧
          (∀ i, i < j → sums (st.n + i) ≠
            (if i = 0 then st.lastTotalChanged else sums (st.n + i - 1))) := by
  intro fuel
  induction fuel with
  | zero => intro st out; simp [iterLoop]
  | succ fuel ih =>
    intro st out
    unfold iterLoop iterBody
    by_cases h : sums st.n = st.lastTotalChanged
    · simp only [h, if_true]
      constructor
      · intro heq
        cases heq
        exact ⟨0, by omega, by simp, by simp, by simpa using h, by intro i hi; omega⟩
      · rintro ⟨j, hj, hn, hl, hs, hall⟩
        have hj0 : j = 0 := by
          by_contra hne
          have := hall 0 (by omega)
          simp at this
          exact this h
        subst hj0
        simp at hn hl
        cases st; cases out; simp_all
    · simp only [h, if_false]
      rw [ih]
      constructor
      · rintro ⟨j, hj, hn, hl, hs, hall⟩
        simp only at hn hl hs hall
        refine ⟨j + 1, by omega, by omega, ?_, ?_, ?_⟩
        · simp only [Nat.succ_ne_zero, if_false]
          rw [hl]
          by_cases hj0 : j = 0
          · subst hj0; simp
          · simp only [hj0, if_false]
            congr 1
            omega
        · rw [← hs]; congr 1; omega
        · intro i hi
          cases i with
          | zero => simpa using h
          | succ i =>
            have := hall i (by omega)
            simp only [Nat.succ_ne_zero, if_false]
            by_cases hi0 : i = 0
            · subst hi0; simpa using this
            · simp only [hi0, if_false] at this
              have e1 : st.n + (i + 1) = st.n + 1 + i := by omega
              rw [e1]; exact this
      · rintro ⟨j, hj, hn, hl, hs, hall⟩
        cases j with
        | zero =>
          exfalso
          simp at hl
          rw [hl] at hs
          simp at hs
          exact h hs
        | succ j =>
          refine ⟨j, by omega, by simp only; omega, ?_, ?_, ?_⟩
          · simp only [Nat.succ_ne_zero, if_false] at hl
            rw [hl]
            by_cases hj0 : j = 0
            · subst hj0; simp
            · simp only [hj0, if_false]
              congr 1
              omega
          · simp only
            rw [← hs]; congr 1; omega
          · intro i hi
            have := hall (i + 1) (by omega)
            simp only [Nat.succ_ne_zero, if_false] at this
            simp only
            by_cases hi0 : i = 0
            · subst hi0; simpa using this
            · simp only [hi0, if_false]
              have e1 : st.n + 1 + i = st.n + (i + 1) := by omega
              rw [e1]; exact this

/-- The driver returns after round `r` (within `fuel` rounds) exactly when `r`
is the first round whose sum equals the value it is compared against. -/
theorem runDistributed_eq_some_iff (s : Nat → Nat) (fuel r : Nat) :
    runDistributed (roundSums s) fuel = some r ↔
      (r ≤ fuel ∧ 1 ≤ r ∧ s r = previousSum s r ∧
        ∀ m, 1 ≤ m → m < r → s m ≠ previousSum s m) := by
  unfold runDistributed
  rw [Option.map_eq_some']
  constructor
  · rintro ⟨out, hout, hr⟩
    rw [iterLoop_spec] at hout
    obtain ⟨j, hj, hn, hl, hs, hall⟩ := hout
    simp only [IterState.init, Nat.zero_add] at hn hl hs hall
    have hrj : r = j + 1 := by omega
    subst hrj
    refine ⟨by omega, by omega, ?_, ?_⟩
    · unfold previousSum
      simp only [roundSums] at hs hl
      rw [hs, hl]
      by_cases hj0 : j = 0
      · subst hj0; simp
      · have : ¬ (j + 1 ≤ 1) := by omega
        simp only [hj0, this, if_false]
        congr 1
        omega
    · intro m hm1 hmr
      have := hall (m - 1) (by omega)
      unfold previousSum
      simp only [roundSums] at this
      have e : m - 1 + 1 = m := by omega
      rw [e] at this
      by_cases hm0 : m - 1 = 0
      · have : m ≤ 1 := by omega
        simp_all
      · have hm : ¬ (m ≤ 1) := by omega
        simp only [hm0, if_false] at this
        simp only [hm, if_false]
        have e2 : m - 1 - 1 + 1 = m - 1 := by omega
        rw [e2] at this
        exact this
  · rintro ⟨hf, hr1, hs, hall⟩
    refine ⟨⟨previousSum s r, r - 1⟩, ?_, by simp only; omega⟩
    rw [iterLoop_spec]
    refine ⟨r - 1, by omega, by simp [IterState.init], ?_, ?_, ?_⟩
    · simp only [IterState.init, Nat.zero_add, roundSums, previousSum]
      by_cases hr0 : r - 1 = 0
      · have : r ≤ 1 := by omega
        simp [hr0, this]
      · have : ¬ (r ≤ 1) := by omega
        simp only [hr0, this, if_false]
        congr 1
        omega
    · simp only [IterState.init, Nat.zero_add, roundSums]
      have e : r - 1 + 1 = r := by omega
      rw [e]; exact hs
    · intro i hi
      have := hall (i + 1) (by omega) (by omega)
      simp only [IterState.init, Nat.zero_add, roundSums]
      unfold previousSum at this
      by_cases hi0 : i = 0
      · subst hi0; simpa using this
      · have hle : ¬ (i + 1 ≤ 1) := by omega
        simp only [hle, if_false] at this
        simp only [hi0, if_false]
        have e : i - 1 + 1 = i := by omega
        rw [e]
        simpa using this

/-- C1 (amended).  `IterableDistributable::runDistributed` returns after round
`r` (rounds counted from 1, `fuel` bounding the rounds observed) exactly when
`r` is the least round whose sum equals the sum of the round before it, where
the sum "before round 1" is the initial `lastTotalChanged = 0`.  So it stops
on round 1 when the first sum is 0, and on a later round exactly at the first
pair of equal consecutive sums. -/
theorem runDistributed_stops_at_first_repeat (s : Nat → Nat) (fuel r : Nat) :
    runDistributed (roundSums s) fuel = some r ↔
      (r ≤ fuel ∧ 1 ≤ r ∧ s r = previousSum s r ∧
        ∀ m, 1 ≤ m → m < r → s m ≠ previousSum s m) :=
  runDistributed_eq_some_iff s fuel r

/-- C1 (amended), at the sums 0, 5, 5, ...: the driver stops after round 1. -/
theorem runDistributed_stops_at_first_repeat_witness :
    runDistributed (roundSums zeroFirstSums) 3 = some 1 :=
  (runDistributed_stops_at_first_repeat zeroFirstSums 3 1).mpr
    ⟨by decide, by decide, by decide, fun m h1 h2 => absurd h1 (by omega)⟩

/-- C1 as stated fails: for the sums 0, 5, 5, ... the driver stops after
round 1, which is not a round `r >= 2` with `s r = s (r - 1)`. -/
theorem runDistributed_stops_without_equal_predecessor :
    ¬ (∀ r, (∃ fuel, runDistributed (roundSums zeroFirstSums) fuel = some r) ↔
        (2 ≤ r ∧ zeroFirstSums r = zeroFirstSums (r - 1) ∧
          ∀ m, 2 ≤ m → m < r → zeroFirstSums m ≠ zeroFirstSums (m - 1))) := by
  intro h
  have h1 := (h 1).mp ⟨1, by decide⟩
  omega

/-- C2 (amended).  For `K >= 2` and sums that strictly decrease over rounds
`1..K`, are 0 at round `K` and 0 again at round `K + 1`, the driver performs
exactly `K + 1` rounds: it has returned `K + 1` once `K + 1` rounds are
allowed and is still running before that. -/
theorem runDistributed_decreasing_to_zero (s : Nat → Nat) (K : Nat) (hK : 2 ≤ K)
    (hdec : ∀ m, 1 ≤ m → m < K → s (m + 1) < s m)
    (hzero : s K = 0) (hrep : s (K + 1) = 0) (fuel : Nat) :
    runDistributed (roundSums s) fuel = if K + 1 ≤ fuel then some (K + 1) else none := by
  have hne : ∀ m, 1 ≤ m → m < K + 1 → s m ≠ previousSum s m := by
    intro m hm1 hmK
    unfold previousSum
    by_cases hm : m ≤ 1
    · have hm' : m = 1 := by omega
      subst hm'
      have := hdec 1 (by omega) (by omega)
      simp only [le_refl, if_true]
      omega
    · simp only [hm, if_false]
      have := hdec (m - 1) (by omega) (by omega)
      have e : m - 1 + 1 = m := by omega
      rw [e] at this
      omega
  by_cases hf : K + 1 ≤ fuel
  · simp only [hf, if_true]
    rw [runDistributed_eq_some_iff]
    refine ⟨hf, by omega, ?_, hne⟩
    unfold previousSum
    have : ¬ (K + 1 ≤ 1) := by omega
    simp only [this, if_false, Nat.add_sub_cancel]
    rw [hrep, hzero]
  · simp only [hf, if_false]
    cases hres : runDistributed (roundSums s) fuel with
    | none => rfl
    | some r =>
      exfalso
      rw [runDistributed_eq_some_iff] at hres
      obtain ⟨hrf, hr1, hs, _⟩ := hres
      exact hne r hr1 (by omega) hs

/-- C2 (amended), at `K = 2` with sums 1, 0, 0: three rounds. -/
theorem runDistributed_decreasing_to_zero_witness :
    runDistributed (roundSums (countdownSums 2)) 3 = some 3 :=
  runDistributed_decreasing_to_zero (countdownSums 2) 2 (by decide)
    (by intro m h1 h2; have : m = 1 := by omega
        subst this; decide)
    (by decide) (by decide) 3

/-- C2 as stated fails at `K = 1`: the sums 0, 0, ... strictly decrease over
rounds `1..1`, are 0 at round 1 and at round 2, yet the driver stops after
round 1 and never reports round 2. -/
theorem runDistributed_zero_first_round :
    (1 ≤ 1 ∧ (∀ m, 1 ≤ m → m < 1 → allZeroSums (m + 1) < allZeroSums m) ∧
      allZeroSums 1 = 0 ∧ allZeroSums (1 + 1) = 0) ∧
    runDistributed (roundSums allZeroSums) 2 = some 1 ∧
    ∀ fuel, runDistributed (roundSums allZeroSums) fuel ≠ some (1 + 1) := by
  refine ⟨⟨by decide, fun m h1 h2 => absurd h1 (by omega), rfl, rfl⟩, by decide, ?_⟩
  intro fuel h
  rw [runDistributed_eq_some_iff] at h
  obtain ⟨_, _, _, hall⟩ := h
  exact hall 1 (by decide) (by decide) (by decide)

/-- C8.  When the per-round sums alternate `a, b, a, b, ...` with `a ≠ b` and
`a ≠ 0`, the driver has not stopped after any number of rounds. -/
theorem runDistributed_alternating_never_stops (a b : Nat) (hab : a ≠ b) (ha : a ≠ 0)
    (fuel : Nat) : runDistributed (roundSums (alternatingSums a b)) fuel = none := by
  cases hres : runDistributed (roundSums (alternatingSums a b)) fuel with
  | none => rfl
  | some r =>
    exfalso
    rw [runDistributed_eq_some_iff] at hres
    obtain ⟨_, hr1, hs, _⟩ := hres
    unfold previousSum alternatingSums at hs
    by_cases hr : r ≤ 1
    · have : r = 1 := by omega
      subst this
      simp at hs
      exact ha hs
    · simp only [hr, if_false] at hs
      rcases Nat.mod_two_eq_zero_or_one r with h0 | h1
      · have h2 : (r - 1) % 2 = 1 := by omega
        simp only [h0, h2, if_true] at hs
        simp at hs
        exact hab hs.symm
      · have h2 : (r - 1) % 2 = 0 := by omega
        simp only [h1, h2, if_true] at hs
        simp at hs
        exact hab hs

/-- C8 at `a = 1`, `b = 2`: still running after 10 rounds. -/
theorem runDistributed_alternating_never_stops_witness :
    (1 : Nat) ≠ 2 ∧ (1 : Nat) ≠ 0 ∧
      runDistributed (roundSums (alternatingSums 1 2)) 10 = none :=
  ⟨by decide, by decide,
    runDistributed_alternating_never_stops 1 2 (by decide) (by decide) 10⟩

/-! ### Decimal rendering and file names -/

theorem digitChar_value (d : Nat) (hd : d < 10) : (Nat.digitChar d).toNat - 48 = d := by
  interval_cases d <;> rfl

theorem decimalValue_toDigitsCore :
    ∀ (fuel n : Nat) (ds : List Char), n < fuel →
      decimalValue (Nat.toDigitsCore 10 fuel n ds) 0 = decimalValue ds n := by
  intro fuel
  induction fuel with
  | zero => intro n ds h; omega
  | succ fuel ih =>
    intro n ds h
    simp only [Nat.toDigitsCore]
    split_ifs with h0
    · have hn : n % 10 = n := by omega
      simp only [decimalValue, List.foldl_cons]
      rw [digitChar_value _ (Nat.mod_lt _ (by decide)), hn]
      simp
    · rw [ih (n / 10) _ (by omega)]
      simp only [decimalValue, List.foldl_cons]
      rw [digitChar_value _ (Nat.mod_lt _ (by decide))]
      congr 1
      omega

theorem decimalValue_repr (n : Nat) : decimalValue (Nat.repr n).data 0 = n := by
  simp only [Nat.repr, List.asString, Nat.toDigits]
  rw [decimalValue_toDigitsCore (n + 1) n [] (by omega)]
  rfl

theorem repr_injective {a b : Nat} (h : Nat.repr a = Nat.repr b) : a = b := by
  have := congrArg (fun s => decimalValue s.data 0) h
  simpa [decimalValue_repr] using this

theorem blockFileName_injective (t : String) {i j : Nat}
    (h : blockFileName t i = blockFileName t j) : i = j := by
  have hd := congrArg String.data h
  simp only [blockFileName, itl2.toString, String.data_append, List.append_assoc] at hd
  have h1 := List.append_cancel_left (List.append_cancel_left hd)
  have h2 := List.append_cancel_right h1
  exact repr_injective (String.ext h2)

theorem foldl_append_other {G : Type} (filename name : String) (hne : name ≠ filename) :
    ∀ (nets : List G) (fs : FileSystem G),
      (nets.foldl (fun f net => f.append filename net) fs) name = fs name := by
  intro nets
  induction nets with
  | nil => intro fs; rfl
  | cons net nets ih =>
    intro fs
    rw [List.foldl_cons, ih]
    simp [FileSystem.append, hne]

theorem foldl_append_same {G : Type} (filename : String) :
    ∀ (nets : List G) (fs : FileSystem G),
      (nets.foldl (fun f net => f.append filename net) fs) filename
        = if nets.isEmpty then fs filename
          else some ((fs filename).getD [] ++ nets) := by
  intro nets
  induction nets with
  | nil => intro fs; rfl
  | cons net nets ih =>
    intro fs
    rw [List.foldl_cons, ih]
    cases nets with
    | nil => simp [FileSystem.append]
    | cons net2 nets => simp [FileSystem.append]

/-- C3.  Called with a skeleton image, an original (possibly null), a file
name template `t`, a block index `i` and an origin,
`TraceLineSkeletonBlockCommand::run` succeeds and consumes its five
arguments; the file it writes to is `t ++ "_" ++ decimal(i) ++ ".dat"`; after
the run that file holds what it held before followed by the graphs traced
for the block, in order (it is left as it was when no graph was traced); no
other file is changed; and the name is the one that the loading loop of
`TraceLineSkeletonCommand::runDistributed` builds for `n = i` from the same
template. -/
theorem block_file_name_agrees {G : Type} (traceBlocks : Nat → Option Nat → Vec3c → List G)
    (img : Nat) (pOrig : Option Nat) (t : String) (i : Nat) (origin : Vec3c)
    (fs : FileSystem G) :
    ∃ r, TraceLineSkeletonBlockCommand.run traceBlocks
          [.image (some img), .image pOrig, .str t, .blockIndex i, .blockOrigin origin] fs
          = some r ∧
      r.filename = t ++ "_" ++ Nat.repr i ++ ".dat" ∧
      blockFileName t i = r.filename ∧
      (∀ name, name ≠ r.filename → r.fs name = fs name) ∧
      r.fs r.filename
        = (if (traceBlocks img pOrig origin).isEmpty then fs r.filename
           else some ((fs r.filename).getD [] ++ traceBlocks img pOrig origin)) ∧
      r.args = [] := by
  refine ⟨_, rfl, ?_, ?_, ?_, ?_, rfl⟩
  · apply String.ext
    simp [itl2.toString, String.data_append, List.append_assoc]
  · apply String.ext
    simp [blockFileName, String.data_append, List.append_assoc]
  · intro name hne
    exact foldl_append_other _ name hne _ fs
  · exact foldl_append_same _ _ fs

/-- C4.  For the changed-pixel count returned by the thinning kernel, the
report printed by `HybridThinCommand::run` and by `LineThinCommand::run` is
the decimal rendering of the count, one space, `pixels removed.` and a line
end, and it contains the literal `pixels removed` that
`IterableDistributable::runDistributed` passes to `parseTotalCount`. -/
theorem thin_report_format {I : Type} (kernel : I → I × Nat) (img : I) :
    (HybridThinCommand.run kernel img).2
        = Nat.repr (kernel img).2 ++ " " ++ "pixels removed." ++ "\n" ∧
    (LineThinCommand.run kernel img).2
        = Nat.repr (kernel img).2 ++ " " ++ "pixels removed." ++ "\n" ∧
    parseTotalCountKey.data <:+: (HybridThinCommand.run kernel img).2.data ∧
    parseTotalCountKey.data <:+: (LineThinCommand.run kernel img).2.data := by
  have hfmt : ∀ n : Nat,
      pixelsRemovedReport n = Nat.repr n ++ " " ++ "pixels removed." ++ "\n" := by
    intro n
    apply String.ext
    simp [pixelsRemovedReport, String.data_append, List.append_assoc]
  have hinfix : ∀ n : Nat, parseTotalCountKey.data <:+: (pixelsRemovedReport n).data := by
    intro n
    refine ⟨(Nat.repr n).data ++ [' '], ['.', '\n'], ?_⟩
    simp [pixelsRemovedReport, parseTotalCountKey, String.data_append, List.append_assoc]
  exact ⟨hfmt _, hfmt _, hinfix _, hinfix _⟩

/-- C7.  The default `Distributable::getCorrespondingBlock` leaves the
argument list and the five geometry vectors as they were, for every argument
list, argument index and geometry. -/
theorem getCorrespondingBlock_identity (args : List ParamVariant) (argIndex : Nat)
    (g : BlockGeometry) :
    Distributable.getCorrespondingBlock args argIndex g = (args, g) := rfl

/-- C10 (what the code does).  The task that `LineSkeletonCommand` dispatches
in every round is `HybridThinCommand` ("hybridthin"), not `LineThinCommand`
("linethin"); `HybridSkeletonCommand` dispatches `HybridThinCommand`. -/
theorem lineSkeleton_dispatches_hybridThin :
    IterableDistributable.dispatched LineSkeletonCommand.command_t
        = BlockCommand.HybridThinCommand ∧
    IterableDistributable.dispatched LineSkeletonCommand.command_t
        ≠ BlockCommand.LineThinCommand ∧
    (IterableDistributable.dispatched LineSkeletonCommand.command_t).name = "hybridthin" ∧
    IterableDistributable.dispatched HybridSkeletonCommand.command_t
        = BlockCommand.HybridThinCommand := by
  decide

/-! ### Loading the block files -/

theorem loadLoop_spec {G : Type} (t : String) (g : Nat → List G) :
    ∀ (k n : Nat) (st : LoadState G),
      (∀ i, i < k → st.fs (blockFileName t (n + i)) = some (g (n + i))) →
      ∃ st', loadLoop t k n st = some st' ∧
        st'.nets = st.nets ++ (List.range k).flatMap (fun i => g (n + i)) ∧
        st'.ops = st.ops ++ (List.range k).flatMap (fun i =>
          [FileOp.read (blockFileName t (n + i)), FileOp.remove (blockFileName t (n + i))]) ∧
        (∀ i, i < k → st'.fs (blockFileName t (n + i)) = none) ∧
        (∀ name, (∀ i, i < k → name ≠ blockFileName t (n + i)) → st'.fs name = st.fs name) := by
  intro k
  induction k with
  | zero =>
    intro n st _
    exact ⟨st, rfl, by simp, by simp, by intro i hi; omega, by intro name _; rfl⟩
  | succ k ih =>
    intro n st hfiles
    have h0 := hfiles 0 (by omega)
    simp only [Nat.add_zero] at h0
    simp only [loadLoop, h0]
    have hshift : ∀ i, n + 1 + i = n + (i + 1) := by intro i; omega
    obtain ⟨st', hrun, hnets, hops, hgone, hkeep⟩ :=
      ih (n + 1)
        { nets := st.nets ++ g n,
          fs := st.fs.remove (blockFileName t n),
          ops := st.ops ++ [FileOp.read (blockFileName t n),
                            FileOp.remove (blockFileName t n)] }
        (by
          intro i hi
          have hne : blockFileName t (n + 1 + i) ≠ blockFileName t n := by
            intro heq
            have := blockFileName_injective t heq
            omega
          simp only [FileSystem.remove, hne, if_false]
          rw [hshift]
          exact hfiles (i + 1) (by omega))
    refine ⟨st', hrun, ?_, ?_, ?_, ?_⟩
    · rw [hnets, List.range_succ_eq_map, List.flatMap_cons, List.flatMap_map]
      simp only [List.append_assoc, Nat.add_zero, Function.comp_def, Nat.succ_eq_add_one, hshift]
    · rw [hops, List.range_succ_eq_map, List.flatMap_cons, List.flatMap_map]
      simp only [List.append_assoc, Nat.add_zero, Function.comp_def, Nat.succ_eq_add_one, hshift]
    · intro i hi
      cases i with
      | zero =>
        rw [hkeep]
        · simp [FileSystem.remove]
        · intro j _ heq
          have := blockFileName_injective t heq
          omega
      | succ i =>
        rw [← hshift]
        exact hgone i (by omega)
    · intro name hname
      rw [hkeep]
      · have := hname 0 (by omega)
        simp only [Nat.add_zero] at this
        simp [FileSystem.remove, this]
      · intro j hj
        rw [hshift]
        exact hname (j + 1) (by omega)

/-- The loading loop on the files left by a dispatch: with block file `i` of
template `t` holding `g i` for every `i < output.size()`, it collects
`g 0 ++ ... ++ g (N - 1)`, reads and removes the block files in order, and
touches no other file. -/
theorem loadBlockFiles_concatenates {G : Type} (t : String) (output : List String)
    (fs : FileSystem G) (g : Nat → List G)
    (hfiles : ∀ i, i < output.length → fs (blockFileName t i) = some (g i)) :
    ∃ st, loadBlockFiles t output fs = some st ∧
      st.nets = (List.range output.length).flatMap g ∧
      st.ops = (List.range output.length).flatMap (fun i =>
        [FileOp.read (blockFileName t i), FileOp.remove (blockFileName t i)]) ∧
      (∀ i, i < output.length → st.fs (blockFileName t i) = none) ∧
      (∀ name, (∀ i, i < output.length → name ≠ blockFileName t i) → st.fs name = fs name) := by
  obtain ⟨st, hrun, hnets, hops, hgone, hkeep⟩ :=
    loadLoop_spec t g output.length 0 { nets := [], fs := fs, ops := [] }
      (by intro i hi; simpa using hfiles i hi)
  refine ⟨st, hrun, ?_, ?_, ?_, ?_⟩
  · simpa using hnets
  · simpa using hops
  · intro i hi; simpa using hgone i hi
  · intro name hname
    simpa using hkeep name (by intro i hi; simpa using hname i hi)

/-- C9.  `TraceLineSkeletonCommand::runDistributed`, called with a skeleton, an
original (possibly null) and the three output images: when the per-block
dispatch it makes with the template it generated returns `N` reports and
leaves block file `i` of that template holding the graph list `g i` for every
`i < N`, the method succeeds and the list it hands to `combineTracedBlocks` is
`g 0 ++ g 1 ++ ... ++ g (N - 1)`, so each block's graphs appear once, in
ascending block index; apart from removing the template name before the
dispatch, its file operations are, in order, read then remove of block file
`0, 1, ..., N - 1` and nothing else; afterwards no block file exists and every
other file is as the dispatch left it. -/
theorem runDistributed_combines_block_files {G : Type} (distribute : Distribute G)
    (combineTracedBlocks : List G → G) (gen img : Nat) (pOrig : Option Nat)
    (vertices edges measurements : Nat) (rest : List ParamVariant) (fs : FileSystem G)
    (output : List String) (fs1 : FileSystem G) (g : Nat → List G)
    (hdispatch : dispatchBlocks distribute img pOrig (traceTempFilename gen)
      (fs.remove (traceTempFilename gen)) = some (output, fs1))
    (hfiles : ∀ i, i < output.length →
      fs1 (blockFileName (traceTempFilename gen) i) = some (g i)) :
    ∃ r, TraceLineSkeletonCommand.runDistributed distribute combineTracedBlocks gen
          (.distributedImage (some img) :: .distributedImage pOrig ::
            .distributedImage (some vertices) :: .distributedImage (some edges) ::
            .distributedImage (some measurements) :: rest) fs = some r ∧
      r.net = combineTracedBlocks ((List.range output.length).flatMap g) ∧
      r.ops = FileOp.remove (traceTempFilename gen) ::
        (List.range output.length).flatMap (fun i =>
          [FileOp.read (blockFileName (traceTempFilename gen) i),
           FileOp.remove (blockFileName (traceTempFilename gen) i)]) ∧
      (∀ i, i < output.length → r.fs (blockFileName (traceTempFilename gen) i) = none) ∧
      (∀ name, (∀ i, i < output.length → name ≠ blockFileName (traceTempFilename gen) i) →
        r.fs name = fs1 name) ∧
      r.args = rest ∧ r.vertices = vertices ∧ r.edges = edges ∧
      r.measurements = measurements ∧ r.returned = [] := by
  obtain ⟨st, hload, hnets, hops, hgone, hkeep⟩ :=
    loadBlockFiles_concatenates (traceTempFilename gen) output fs1 g hfiles
  refine ⟨{ args := rest, vertices := vertices, edges := edges,
            measurements := measurements, net := combineTracedBlocks st.nets,
            fs := st.fs, ops := FileOp.remove (traceTempFilename gen) :: st.ops,
            returned := [] }, ?_, ?_, ?_, hgone, hkeep, rfl, rfl, rfl, rfl, rfl⟩
  · simp only [TraceLineSkeletonCommand.runDistributed, popDistributedImage, hdispatch, hload]
  · simp only [hnets]
  · simp only [hops]

/-- C9 on the sample run over two blocks, without an original: the blocks
write the graph lists `[1]` and `[2, 3]`, and `combineTracedBlocks` (here the
sum) receives `[1, 2, 3]`. -/
theorem runDistributed_combines_block_files_witness :
    ∃ r, TraceLineSkeletonCommand.runDistributed twoBlockDistribute List.sum 7
          [.distributedImage (some 0), .distributedImage none, .distributedImage (some 1),
           .distributedImage (some 2), .distributedImage (some 3)] (fun _ => none) = some r ∧
      r.net = List.sum [1, 2, 3] ∧
      r.ops = [FileOp.remove "./tmp_images/skeleton_data_7",
               FileOp.read "./tmp_images/skeleton_data_7_0.dat",
               FileOp.remove "./tmp_images/skeleton_data_7_0.dat",
               FileOp.read "./tmp_images/skeleton_data_7_1.dat",
               FileOp.remove "./tmp_images/skeleton_data_7_1.dat"] := by
  obtain ⟨r, hr, hnet, hops, _⟩ :=
    runDistributed_combines_block_files twoBlockDistribute List.sum 7 0 none 1 2 3 []
      (fun _ => none) _ _ twoBlockGraphs rfl
      (by intro i hi
          have hi2 : i < 2 := hi
          interval_cases i <;> decide)
  exact ⟨r, hr, hnet, hops⟩

/-! ### The edge filter of `regionRemoval` -/

theorem sizeMod_eq : sizeMod = 18446744073709551616 := by
  norm_num [sizeMod]

theorem edgeFilterLoop_spec {α : Type} [Zero α] [DecidableEq α] :
    ∀ (rest pre : List (List α)) (fuel : Nat),
      (∀ row ∈ rest, row ≠ [] ∧ row.length < sizeMod) →
      pre.length + rest.length < sizeMod → rest.length < fuel →
      edgeFilterLoop fuel (pre ++ rest) pre.length
        = some (pre ++ rest.filter (fun row => decide (row.getLast? = some 0))) := by
  intro rest
  induction rest with
  | nil =>
    intro pre fuel _ _ hfuel
    cases fuel with
    | zero => simp at hfuel
    | succ fuel => simp [edgeFilterLoop]
  | cons row rest ih =>
    intro pre fuel hrows hlen hfuel
    cases fuel with
    | zero => simp at hfuel
    | succ fuel =>
      have hrow := hrows row (List.mem_cons_self _ _)
      have hrest : ∀ r ∈ rest, r ≠ [] ∧ r.length < sizeMod :=
        fun r hr => hrows r (List.mem_cons_of_mem _ hr)
      simp only [List.length_cons] at hlen hfuel
      have hpos : 0 < row.length := List.length_pos.mpr hrow.1
      have hidx : (row.length + sizeMod - 1) % sizeMod = row.length - 1 := by
        have := hrow.2
        rw [sizeMod_eq] at this ⊢
        omega
      have hback : ((pre.length + sizeMod - 1) % sizeMod + 1) % sizeMod = pre.length := by
        rw [sizeMod_eq] at hlen ⊢
        omega
      have hfwd : (pre.length + 1) % sizeMod = pre.length + 1 := by
        rw [sizeMod_eq] at hlen ⊢
        omega
      have hn : pre.length < (pre ++ row :: rest).length := by
        simp
      have hget : (pre ++ row :: rest)[pre.length]? = some row := by
        rw [List.getElem?_append_right (le_refl _)]
        simp
      have hlast : row[row.length - 1]? = some (row.getLast hrow.1) := by
        rw [← List.getLast?_eq_getElem?, List.getLast?_eq_getLast _ hrow.1]
      have hlast' : row.getLast? = some (row.getLast hrow.1) :=
        List.getLast?_eq_getLast _ hrow.1
      unfold edgeFilterLoop
      simp only [hn, if_true, hget, hidx, hlast]
      by_cases hv : row.getLast hrow.1 = 0
      · have hkeep : decide (row.getLast? = some 0) = true := by
          rw [hlast', hv]; simp
        simp only [hv, ne_eq, not_true_eq_false, if_false, hfwd]
        have := ih (pre ++ [row]) fuel hrest (by simp; omega) (by omega)
        simp only [List.length_append, List.length_singleton, List.append_assoc,
          List.singleton_append] at this
        rw [this]
        simp only [List.filter_cons, hkeep, if_true]
      · have hdrop : ¬ (decide (row.getLast? = some 0) = true) := by
          rw [hlast']; simpa using hv
        simp only [hv, ne_eq, not_false_eq_true, if_true, hback]
        have herase : (pre ++ row :: rest).eraseIdx pre.length = pre ++ rest := by
          rw [List.eraseIdx_append_of_length_le (le_refl _)]
          simp
        rw [herase, ih pre fuel hrest (by omega) (by omega)]
        simp [List.filter_cons, hdrop]

/-- C6.  In `regionRemoval` with `preserveEdges = true`, for a particle table
(fewer than `2 ^ 64` rows, as for any `std::vector`) whose rows are non-empty,
the edge-filter loop, with `n--` at index 0 wrapping modulo `2 ^ 64`,
terminates (any fuel above the number of rows suffices) and leaves exactly the
rows whose last entry is 0, in their original order; this is the table passed
to `fillParticles`. -/
theorem regionRemoval_edge_filter {α : Type} [Zero α] [DecidableEq α]
    (results : List (List α)) (fuel : Nat)
    (hsize : results.length < sizeMod)
    (hrows : ∀ row ∈ results, row ≠ [] ∧ row.length < sizeMod)
    (hfuel : results.length < fuel) :
    regionRemovalTable true results fuel
      = some (results.filter (fun row => decide (row.getLast? = some 0))) := by
  have := edgeFilterLoop_spec results [] fuel hrows (by simpa using hsize) hfuel
  simpa [regionRemovalTable] using this

/-- C6 on a four-row table: the two rows flagged as touching the edge are
removed, starting with the row at index 0. -/
theorem regionRemoval_edge_filter_witness :
    regionRemovalTable true sampleParticles 5 = some [[7, 3, 0], [2, 8, 0]] :=
  regionRemoval_edge_filter sampleParticles 5 (by rw [sizeMod_eq]; decide)
    (by rw [sizeMod_eq]; decide) (by decide)

/-! ### Cleaning the skeleton graph -/

theorem sum_map_filter_split {α : Type} (p : α → Bool) (g : α → Nat) (l : List α) :
    (l.map g).sum
      = ((l.filter p).map g).sum + ((l.filter fun a => !p a).map g).sum := by
  induction l with
  | nil => rfl
  | cons a l ih =>
    cases hp : p a <;> simp [List.filter_cons, hp, ih] <;> omega

theorem sum_map_eq_zero {α : Type} (g : α → Nat) (l : List α) (h : ∀ a ∈ l, g a = 0) :
    (l.map g).sum = 0 := by
  induction l with
  | nil => rfl
  | cons a l ih =>
    simp only [List.map_cons, List.sum_cons]
    rw [h a (List.mem_cons_self _ _), ih (fun b hb => h b (List.mem_cons_of_mem _ hb))]

theorem Edge.endsAt_le_two {M : Type} (e : Edge M) (v : Nat) : e.endsAt v ≤ 2 := by
  unfold Edge.endsAt
  split_ifs <;> omega

theorem Edge.endsAt_of_two {M : Type} (e : Edge M) (v u : Nat) (h : e.endsAt v = 2)
    (huv : u ≠ v) : e.endsAt u = 0 := by
  unfold Edge.endsAt at h ⊢
  by_cases h1 : e.verts.1 = v <;> by_cases h2 : e.verts.2 = v
  · have a1 : ¬ (e.verts.1 = u) := by rw [h1]; exact fun h => huv h.symm
    have a2 : ¬ (e.verts.2 = u) := by rw [h2]; exact fun h => huv h.symm
    simp [a1, a2]
  · simp [h1, h2] at h
  · simp [h1, h2] at h
  · simp [h1, h2] at h

/-- Vertex `v` has degree 2 exactly in two shapes: one self-loop, or two
edges with one end each at `v`. -/
theorem Network.incident_of_degree_two {V M : Type} (net : Network V M) (v : Nat)
    (h : net.degree v = 2) :
    (∃ e, (net.edges.filter fun e => e.endsAt v ≠ 0) = [e] ∧ e.endsAt v = 2) ∨
    (∃ e1 e2, (net.edges.filter fun e => e.endsAt v ≠ 0) = [e1, e2] ∧
      e1.endsAt v = 1 ∧ e2.endsAt v = 1) := by
  have hsplit := sum_map_filter_split (fun e : Edge M => decide (e.endsAt v ≠ 0))
    (fun e => e.endsAt v) net.edges
  have hzero : ((net.edges.filter fun a => !decide (a.endsAt v ≠ 0)).map
      fun e => e.endsAt v).sum = 0 := by
    apply sum_map_eq_zero
    intro a ha
    simpa using (List.mem_filter.mp ha).2
  have hsum : ((net.edges.filter fun e => decide (e.endsAt v ≠ 0)).map
      fun e => e.endsAt v).sum = 2 := by
    unfold Network.degree at h
    omega
  have hpos : ∀ e ∈ net.edges.filter (fun e => decide (e.endsAt v ≠ 0)), 1 ≤ e.endsAt v := by
    intro e he
    have := (List.mem_filter.mp he).2
    simp at this
    omega
  generalize (net.edges.filter fun e => decide (e.endsAt v ≠ 0)) = inc at hsum hpos
  match inc, hsum, hpos with
  | [], hsum, _ => simp at hsum
  | [e], hsum, _ => left; exact ⟨e, rfl, by simpa using hsum⟩
  | [e1, e2], hsum, hpos =>
    right
    have p1 := hpos e1 (by simp)
    have p2 := hpos e2 (by simp)
    simp at hsum
    exact ⟨e1, e2, rfl, by omega, by omega⟩
  | e1 :: e2 :: e3 :: rest, hsum, hpos =>
    have p1 := hpos e1 (by simp)
    have p2 := hpos e2 (by simp)
    have p3 := hpos e3 (by simp)
    simp at hsum
    omega

theorem Network.disconnectNode_of_loop {V M : Type} (combine : M → M → M)
    (net : Network V M) (v : Nat) (h : net.degree v = 2) (e : Edge M)
    (hinc : (net.edges.filter fun e => e.endsAt v ≠ 0) = [e]) :
    net.disconnectNode combine v = net := by
  unfold Network.disconnectNode
  rw [if_pos h]
  simp only [hinc]

theorem Network.disconnectNode_of_pair {V M : Type} (combine : M → M → M)
    (net : Network V M) (v : Nat) (h : net.degree v = 2) (e1 e2 : Edge M)
    (hinc : (net.edges.filter fun e => e.endsAt v ≠ 0) = [e1, e2]) :
    net.disconnectNode combine v
      = { net with edges := (net.edges.filter fun e => e.endsAt v = 0) ++
          [{ verts := (e1.otherEnd v, e2.otherEnd v),
             properties := combine e1.properties e2.properties }] } := by
  unfold Network.disconnectNode
  rw [if_pos h]
  simp only [hinc]

theorem sum_map_filter_split_add {α M : Type} [AddCommMonoid M] (p : α → Bool) (g : α → M)
    (l : List α) :
    (l.map g).sum
      = ((l.filter p).map g).sum + ((l.filter fun a => !p a).map g).sum := by
  induction l with
  | nil => simp
  | cons a l ih =>
    cases hp : p a
    · simp [List.filter_cons, hp, ih, add_left_comm]
    · simp [List.filter_cons, hp, ih, add_assoc]

/-- Straight-through elimination at one vertex keeps the total of the edge
measurements when merged edges add theirs up. -/
theorem Network.disconnectNode_totalMeasurement {V M : Type} [AddCommMonoid M]
    (net : Network V M) (v : Nat) :
    (net.disconnectNode (fun a b => a + b) v).totalMeasurement = net.totalMeasurement := by
  by_cases h : net.degree v = 2
  · rcases net.incident_of_degree_two v h with ⟨e, hinc, _⟩ | ⟨e1, e2, hinc, _, _⟩
    · rw [net.disconnectNode_of_loop _ v h e hinc]
    · rw [net.disconnectNode_of_pair _ v h e1 e2 hinc]
      have hsplit := sum_map_filter_split_add (fun e : Edge M => decide (e.endsAt v = 0))
        (fun e => e.properties) net.edges
      have hneg : (fun a : Edge M => !decide (a.endsAt v = 0))
          = fun e => decide (e.endsAt v ≠ 0) := by
        funext a; simp
      rw [hneg, hinc] at hsplit
      simp only [Network.totalMeasurement]
      rw [hsplit]
      simp
  · unfold Network.disconnectNode
    rw [if_neg h]

/-- The cleanup keeps the total of the edge measurements: edges are merged,
never dropped. -/
theorem cleanSkeleton_totalMeasurement {V M : Type} [AddCommMonoid M] (net : Network V M) :
    (CleanSkeletonCommand.run (fun a b => a + b) net).totalMeasurement
      = net.totalMeasurement := by
  have hfold : ∀ (l : List Nat) (n : Network V M),
      (l.foldl (Network.disconnectNode fun a b => a + b) n).totalMeasurement
        = n.totalMeasurement := by
    intro l
    induction l with
    | nil => intro n; rfl
    | cons v l ih =>
      intro n
      rw [List.foldl_cons, ih, n.disconnectNode_totalMeasurement]
  have hrem : ∀ n : Network V M, n.removeIsolatedNodes.totalMeasurement
      = n.totalMeasurement := by
    intro n
    simp [Network.totalMeasurement, Network.removeIsolatedNodes, List.map_map,
      Function.comp_def]
  unfold CleanSkeletonCommand.run
  rw [hrem]
  exact hfold _ net

/-- C11.  For every non-empty argument list (skeleton, rest...), inserting the
null original at position 1 gives (skeleton, null, rest...): the list grows by
one, the skeleton stays first and the other arguments keep their values and
order.  `TraceLineSkeletonBlock2Command::run`,
`TraceLineSkeleton2Command::run` and
`TraceLineSkeleton2Command::runDistributed` on (skeleton, rest...) behave
exactly as `TraceLineSkeletonBlockCommand::run`,
`TraceLineSkeletonCommand::run` and
`TraceLineSkeletonCommand::runDistributed` on (skeleton, null, rest...). -/
theorem no_original_variants_insert_null {G : Type}
    (traceBlocks : Nat → Option Nat → Vec3c → List G)
    (traceLineSkeleton : Nat → Option Nat → G)
    (distribute : Distribute G) (combineTracedBlocks : List G → G) (gen : Nat)
    (skeleton : ParamVariant) (rest : List ParamVariant) (fs : FileSystem G) :
    (∀ null, vectorInsert (skeleton :: rest) 1 null = some (skeleton :: null :: rest)) ∧
    (∀ null, (skeleton :: null :: rest).length = (skeleton :: rest).length + 1) ∧
    TraceLineSkeletonBlock2Command.run traceBlocks (skeleton :: rest) fs
      = TraceLineSkeletonBlockCommand.run traceBlocks (skeleton :: .image none :: rest) fs ∧
    TraceLineSkeleton2Command.run traceLineSkeleton (skeleton :: rest)
      = TraceLineSkeletonCommand.run traceLineSkeleton (skeleton :: .image none :: rest) ∧
    TraceLineSkeleton2Command.runDistributed distribute combineTracedBlocks gen
        (skeleton :: rest) fs
      = TraceLineSkeletonCommand.runDistributed distribute combineTracedBlocks gen
          (skeleton :: .distributedImage none :: rest) fs := by
  have hins : ∀ null, vectorInsert (skeleton :: rest) 1 null
      = some (skeleton :: null :: rest) := by
    intro null
    simp [vectorInsert]
  refine ⟨hins, fun _ => rfl, ?_, ?_, ?_⟩
  · simp only [TraceLineSkeletonBlock2Command.run, hins]
  · simp only [TraceLineSkeleton2Command.run, hins]
  · simp only [TraceLineSkeleton2Command.runDistributed, hins]

/-! ### Zarr codecs -/

theorem readBytesCodecConfigLoop_ok_iff :
    ∀ (members : List (String × String)) (endian : String),
      (∃ e, readBytesCodecConfigLoop members endian = .ok e) ↔
        ∀ kv ∈ members, kv.1 = "endian" ∧ (kv.2 = "little" ∨ kv.2 = "big") := by
  intro members
  induction members with
  | nil => intro endian; simp [readBytesCodecConfigLoop]
  | cons kv rest ih =>
    intro endian
    obtain ⟨key, value⟩ := kv
    simp only [readBytesCodecConfigLoop, List.mem_cons, forall_eq_or_imp]
    by_cases hk : key = "endian"
    · by_cases hv : value = "little" ∨ value = "big"
      · have hv' : ¬ (value ≠ "little" ∧ value ≠ "big") := by
          rcases hv with h | h <;> simp [h]
        simp only [hk, if_true, hv', if_false, ih, true_and, hv]
      · have hv' : value ≠ "little" ∧ value ≠ "big" := by
          constructor
          · intro h; exact hv (Or.inl h)
          · intro h; exact hv (Or.inr h)
        constructor
        · rintro ⟨e, he⟩
          rw [if_pos hk, if_pos hv'] at he
          cases he
        · intro h
          exact absurd h.1.2 hv
    · constructor
      · rintro ⟨e, he⟩
        rw [if_neg hk] at he
        cases he
      · intro h
        exact absurd h.1.1 hk

theorem readBytesCodecConfigLoop_single (e endian : String)
    (h : e = "little" ∨ e = "big") :
    readBytesCodecConfigLoop [("endian", e)] endian = .ok e := by
  have hv' : ¬ (e ≠ "little" ∧ e ≠ "big") := by
    rcases h with h | h <;> simp [h]
  simp [readBytesCodecConfigLoop, hv']

/-- An object whose keys are all `endian` has at most one member. -/
theorem members_of_all_endian (members : List (String × String))
    (hkeys : (members.map Prod.fst).Nodup)
    (hall : ∀ kv ∈ members, kv.1 = "endian" ∧ (kv.2 = "little" ∨ kv.2 = "big")) :
    members = [] ∨ ∃ e, members = [("endian", e)] ∧ (e = "little" ∨ e = "big") := by
  match members, hkeys, hall with
  | [], _, _ => exact Or.inl rfl
  | [(key, value)], _, hall =>
    right
    have := hall (key, value) (by simp)
    simp only at this
    exact ⟨value, by rw [this.1], this.2⟩
  | kv1 :: kv2 :: rest, hkeys, hall =>
    exfalso
    have h1 := (hall kv1 (by simp)).1
    have h2 := (hall kv2 (by simp)).1
    simp only [List.map_cons, List.nodup_cons, List.mem_cons] at hkeys
    exact hkeys.1 (Or.inl (h1.trans h2.symm))

/-- C12.  For a configuration that is `null` or an object with string values
(distinct keys), `ZarrCodec::readBytesCodecConfig` succeeds exactly when every
key is `endian` with value `little` or `big`; on success the configuration of
the codec is the object with the single member `endian`, whose value is the
given one, or `little` when the configuration is empty or `null`, and name and
type are unchanged; for any other key or any other endian value it throws. -/
theorem readBytesCodecConfig_spec (codec : ZarrCodec) (config : Json)
    (hkeys : (config.members.map Prod.fst).Nodup) :
    ((∃ c, codec.readBytesCodecConfig config = .ok c) ↔
      ∀ kv ∈ config.members, kv.1 = "endian" ∧ (kv.2 = "little" ∨ kv.2 = "big")) ∧
    (∀ c, codec.readBytesCodecConfig config = .ok c →
      c.name = codec.name ∧ c.type = codec.type ∧
      ((config.members = [] ∧ c.configuration = .object [("endian", "little")]) ∨
        ∃ e, config.members = [("endian", e)] ∧
          c.configuration = .object [("endian", e)])) ∧
    ((∃ kv ∈ config.members, kv.1 ≠ "endian" ∨ (kv.2 ≠ "little" ∧ kv.2 ≠ "big")) →
      ∃ msg, codec.readBytesCodecConfig config = .error msg) := by
  have hiff : (∃ c, codec.readBytesCodecConfig config = .ok c) ↔
      ∀ kv ∈ config.members, kv.1 = "endian" ∧ (kv.2 = "little" ∨ kv.2 = "big") := by
    rw [← readBytesCodecConfigLoop_ok_iff config.members "little"]
    unfold ZarrCodec.readBytesCodecConfig
    cases hloop : readBytesCodecConfigLoop config.members "little" with
    | error msg => simp
    | ok endian => simp
  refine ⟨hiff, ?_, ?_⟩
  · intro c hc
    have hall := hiff.mp ⟨c, hc⟩
    unfold ZarrCodec.readBytesCodecConfig at hc
    rcases members_of_all_endian config.members hkeys hall with hnil | ⟨e, he, hval⟩
    · rw [hnil] at hc
      simp only [readBytesCodecConfigLoop] at hc
      cases hc
      exact ⟨rfl, rfl, Or.inl ⟨hnil, rfl⟩⟩
    · rw [he, readBytesCodecConfigLoop_single e "little" hval] at hc
      simp only at hc
      cases hc
      exact ⟨rfl, rfl, Or.inr ⟨e, he, rfl⟩⟩
  · rintro ⟨kv, hmem, hbad⟩
    cases hres : codec.readBytesCodecConfig config with
    | error msg => exact ⟨msg, rfl⟩
    | ok c =>
      exfalso
      have := hiff.mp ⟨c, hres⟩ kv hmem
      rcases hbad with hk | ⟨hl, hb⟩
      · exact hk this.1
      · rcases this.2 with h | h
        · exact hl h
        · exact hb h

/-- C12 on the object with the single member `endian` = `big`, read into a
bytes codec. -/
theorem readBytesCodecConfig_spec_witness :
    (((Json.object [("endian", "big")]).members.map Prod.fst).Nodup) ∧
    ∃ c, bytesCodec.readBytesCodecConfig (.object [("endian", "big")]) = .ok c ∧
      c.configuration = .object [("endian", "big")] := by
  have hk : ((Json.object [("endian", "big")]).members.map Prod.fst).Nodup := by decide
  have h := readBytesCodecConfig_spec bytesCodec (.object [("endian", "big")]) hk
  obtain ⟨c, hc⟩ := h.1.mpr (by decide)
  refine ⟨hk, c, hc, ?_⟩
  rcases (h.2.1 c hc).2.2 with ⟨hnil, _⟩ | ⟨e, he, hcfg⟩
  · simp [Json.members] at hnil
  · simp only [Json.members, List.cons.injEq, Prod.mk.injEq, and_true, true_and] at he
    rw [hcfg, ← he]

/-- C13.  Codec names round-trip through their text form: for every name other
than `None`, `fromString` of its `toString` is the name; `fromString` succeeds
exactly on the strings whose lower-casing is `bytes` or `transpose`, and then
`toString` of the result is the lower-cased string; `toString` throws on
`None`. -/
theorem zarrCodecName_roundtrip :
    (∀ n : ZarrCodecName, n ≠ .None →
      ∃ s, n.toString = .ok s ∧ ZarrCodecName.fromString s = .ok n) ∧
    (∀ s : String, (∃ n, ZarrCodecName.fromString s = .ok n) ↔
      (itl2.toLower s = "bytes" ∨ itl2.toLower s = "transpose")) ∧
    (∀ (s : String) (n : ZarrCodecName), ZarrCodecName.fromString s = .ok n →
      n.toString = .ok (itl2.toLower s)) ∧
    ZarrCodecName.None.toString = .error "Invalid ZarrCodecName." := by
  refine ⟨?_, ?_, ?_, rfl⟩
  · intro n hn
    cases n with
    | None => exact absurd rfl hn
    | Bytes =>
      have h : itl2.toLower "bytes" = "bytes" := by decide
      exact ⟨"bytes", rfl, by simp [ZarrCodecName.fromString, h]⟩
    | Transpose =>
      have h : itl2.toLower "transpose" = "transpose" := by decide
      exact ⟨"transpose", rfl, by simp [ZarrCodecName.fromString, h]⟩
  · intro s
    unfold ZarrCodecName.fromString
    by_cases hb : itl2.toLower s = "bytes"
    · simp [hb]
    · by_cases ht : itl2.toLower s = "transpose"
      · simp [ht]
      · simp [hb, ht]
  · intro s n h
    unfold ZarrCodecName.fromString at h
    by_cases hb : itl2.toLower s = "bytes"
    · simp only [hb, if_true] at h
      cases h
      simp [ZarrCodecName.toString, hb]
    · by_cases ht : itl2.toLower s = "transpose"
      · have hne : ¬ ("transpose" = "bytes") := by decide
        simp only [ht, hne, if_true, if_false] at h
        cases h
        simp [ZarrCodecName.toString, ht]
      · simp only [hb, ht, if_false] at h
        cases h

end Pi2
